import Mathlib

/-!
Verification of the A* pathfinder implemented in `astarclaude.py` (and
duplicated verbatim in `interactive.py`).

The embedding keeps the structure of the Python function `astar`:

* a grid is `List (List Nat)` where `0` = walkable, `1` = obstacle;
* positions are pairs of integers `(row, col)`;
* the priority queue is modelled as the multiset of `(f_score, counter,
  position)` entries, popped at the lexicographically least `(f, counter)`
  key — exactly the element `heapq.heappop` returns, since counters are
  unique within one call so the full tuple order never reaches the
  position component;
* the mutable dictionaries `came_from` and `g_score` are association
  lists consed on update (lookup takes the most recent binding, as a
  Python dict assignment does);
* the unbounded `while pq:` loop is run on explicit fuel; a separate
  theorem shows the chosen fuel is never exhausted, so the fuelled
  function computes the value of the Python loop.
-/

/-- Grid cell coordinate `(row, col)`, Python `Tuple[int, int]`. -/
abbrev Pos : Type := Int × Int

/-- `rows = len(grid)`. -/
def rowsOf (grid : List (List Nat)) : Nat := grid.length

/-- `cols = len(grid[0])` (`0` for the empty grid, where Python raises). -/
def colsOf (grid : List (List Nat)) : Nat := (grid.headD []).length

/-- Cell access `grid[r][c]` for non-negative indices. -/
def cellAt (grid : List (List Nat)) (r c : Nat) : Option Nat :=
  (grid.get? r).bind (fun row => row.get? c)

/-- The guard `0 <= nr < rows and 0 <= nc < cols and grid[nr][nc] == 0`
from `neighbors`. -/
def walkableB (grid : List (List Nat)) (p : Pos) : Bool :=
  decide (0 ≤ p.1) && decide (p.1 < (rowsOf grid : Int)) &&
  decide (0 ≤ p.2) && decide (p.2 < (colsOf grid : Int)) &&
  (cellAt grid p.1.toNat p.2.toNat == some 0)

/-- `candidates = [(r+1, c), (r-1, c), (r, c+1), (r, c-1)]`. -/
def candidates (p : Pos) : List Pos :=
  [(p.1 + 1, p.2), (p.1 - 1, p.2), (p.1, p.2 + 1), (p.1, p.2 - 1)]

/-- The nested function `neighbors`: in-bounds walkable candidates. -/
def neighbors (grid : List (List Nat)) (p : Pos) : List Pos :=
  (candidates p).filter (walkableB grid)

/-- The nested function `h`: Manhattan distance to the goal. -/
def hscore (goal p : Pos) : Nat :=
  (p.1 - goal.1).natAbs + (p.2 - goal.2).natAbs

/-- One priority-queue entry `(f_score, counter, position)`. -/
abbrev Entry : Type := Nat × Nat × Pos

/-- The mutable state of one `astar` call. -/
structure AState where
  pq : List Entry
  came_from : List (Pos × Pos)
  g_score : List (Pos × Nat)
  visited : List Pos
  counter : Nat

/-- Dictionary lookup on an association list (most recent binding wins). -/
def alook {β : Type} (k : Pos) : List (Pos × β) → Option β
  | [] => none
  | (a, b) :: l => if k = a then some b else alook k l

/-- Strict lexicographic order on the `(f, counter)` part of an entry.
`heapq` orders full tuples, but counters are unique within a call, so the
position component is never compared. -/
def entLtB (a b : Entry) : Bool :=
  decide (a.1 < b.1) || (decide (a.1 = b.1) && decide (a.2.1 < b.2.1))

/-- Least entry of `e :: l` under `entLtB`. -/
def selMin (e : Entry) : List Entry → Entry
  | [] => e
  | x :: xs => selMin (if entLtB x e then x else e) xs

/-- `heapq.heappop`: remove and return the least entry. -/
def popMin : List Entry → Option (Entry × List Entry)
  | [] => none
  | x :: xs =>
    let m := selMin x xs
    some (m, (x :: xs).erase m)

/-- The update branch of the neighbour loop: record
`came_from[nb] = curr`, `g_score[nb] = tentative_g`, and push
`(tentative_g + h(nb), counter, nb)` with a fresh counter.
`tentative_g` is `g_score[curr] + 1`; `curr` is always bound in
`g_score` (every queued position is), so the `getD` default is inert. -/
def relaxPush (grid : List (List Nat)) (goal curr : Pos) (s : AState)
    (nb : Pos) : AState :=
  { pq := s.pq ++
      [((alook curr s.g_score).getD 0 + 1 + hscore goal nb, s.counter, nb)]
    came_from := (nb, curr) :: s.came_from
    g_score := (nb, (alook curr s.g_score).getD 0 + 1) :: s.g_score
    visited := s.visited
    counter := s.counter + 1 }

/-- One turn of the `for nb in neighbors(curr):` body:
`if nb not in g_score or tentative_g < g_score[nb]: ...`. -/
def relax (grid : List (List Nat)) (goal curr : Pos) (s : AState) (nb : Pos) :
    AState :=
  match alook nb s.g_score with
  | none => relaxPush grid goal curr s nb
  | some gnb =>
    if (alook curr s.g_score).getD 0 + 1 < gnb then
      relaxPush grid goal curr s nb
    else s

/-- The whole neighbour loop of one expansion. -/
def expandAll (grid : List (List Nat)) (goal curr : Pos) (s : AState) :
    AState :=
  (neighbors grid curr).foldl (relax grid goal curr) s

/-- Path reconstruction: follow `came_from` links, building the list
front-first (the Python code appends and reverses, same result).  The
fuel bounds the chain length; invariants show `came_from.length` always
suffices. -/
def reconAux (cf : List (Pos × Pos)) : Nat → Pos → List Pos → List Pos
  | fuel, p, acc =>
    match alook p cf, fuel with
    | some q, fuel' + 1 => reconAux cf fuel' q (p :: acc)
    | _, _ => p :: acc

/-- `path = [curr]; while curr in came_from: ...; return path[::-1]`. -/
def reconstruct (cf : List (Pos × Pos)) (p : Pos) : List Pos :=
  reconAux cf cf.length p []

/-- One iteration of `while pq:`: either a result (`Sum.inl`) or the next
state (`Sum.inr`). -/
def stepA (grid : List (List Nat)) (goal : Pos) (s : AState) :
    Sum (Option (List Pos)) AState :=
  match popMin s.pq with
  | none => Sum.inl none
  | some (e, rest) =>
    let curr := e.2.2
    if curr = goal then Sum.inl (some (reconstruct s.came_from curr))
    else if curr ∈ s.visited then Sum.inr { s with pq := rest }
    else
      Sum.inr (expandAll grid goal curr
        { s with pq := rest, visited := curr :: s.visited })

/-- The fuelled `while pq:` loop; `none` means the fuel ran out (shown
impossible for `fuelFor`). -/
def loopA (grid : List (List Nat)) (goal : Pos) :
    Nat → AState → Option (Option (List Pos))
  | 0, _ => none
  | fuel + 1, s =>
    match stepA grid goal s with
    | Sum.inl r => some r
    | Sum.inr s' => loopA grid goal fuel s'

/-- Fuel that provably dominates the loop's iteration count. -/
def fuelFor (grid : List (List Nat)) : Nat :=
  5 * (rowsOf grid * colsOf grid + 1) + 2

/-- State at entry of `while pq:`: `pq = [(h(start), 0, start)]`,
`g_score = {start: 0}`, counter already incremented to 1. -/
def initState (grid : List (List Nat)) (start goal : Pos) : AState :=
  { pq := [(hscore goal start, 0, start)]
    came_from := []
    g_score := [(start, 0)]
    visited := []
    counter := 1 }

/-- The run of `astar`, with fuel exhaustion still visible as `none`. -/
def astarRun (grid : List (List Nat)) (start goal : Pos) :
    Option (Option (List Pos)) :=
  loopA grid goal (fuelFor grid) (initState grid start goal)

/-- The Python function `astar`: a path, or `None`. -/
def astar (grid : List (List Nat)) (start goal : Pos) :
    Option (List Pos) :=
  match astarRun grid start goal with
  | some r => r
  | none => none

/-! ### Specification-side notions: paths and distance -/

/-- Two cells differ by exactly one unit in exactly one axis. -/
def Adjacent (p q : Pos) : Prop :=
  (p.1 = q.1 ∧ (p.2 - q.2).natAbs = 1) ∨ (p.2 = q.2 ∧ (p.1 - q.1).natAbs = 1)

/-- A valid route: starts at `s`, ends at `t`, every consecutive pair is a
step to an in-bounds walkable neighbour, every cell is walkable. -/
def ValidPath (grid : List (List Nat)) (s t : Pos) (l : List Pos) : Prop :=
  l.head? = some s ∧ l.getLast? = some t ∧
  List.Chain' (fun p q => q ∈ neighbors grid p) l ∧
  ∀ p ∈ l, walkableB grid p = true

/-- `t` is reachable from `s` in exactly `n` steps (a path of `n + 1`
cells). -/
def reachSteps (grid : List (List Nat)) (s t : Pos) (n : Nat) : Prop :=
  ∃ l, ValidPath grid s t l ∧ l.length = n + 1

/-- The grid is rectangular (and non-empty, as Python's `len(grid[0])`
requires). -/
def Rect (grid : List (List Nat)) : Prop :=
  grid ≠ [] ∧ ∀ row ∈ grid, row.length = colsOf grid

/-- `k` is the true shortest 4-directional walkable distance from `s` to
`t`. -/
def MinSteps (grid : List (List Nat)) (s t : Pos) (k : Nat) : Prop :=
  IsLeast {n | reachSteps grid s t n} k

/-- Invariant of the `while pq:` loop (for walkable `start` and `goal`):
`g_score` records lengths of real paths, every queue entry has `f` at
least its position's current `g + h`, every scored unvisited position
keeps a queue entry at its current `g + h`, visited positions carry their
exact shortest distance and have relaxed all their neighbours, and
`came_from` links are grid steps with strictly decreasing `g`. -/
structure BI (grid : List (List Nat)) (start goal : Pos) (s : AState) :
    Prop where
  gstart : alook start s.g_score = some 0
  gub : ∀ p k, alook p s.g_score = some k → reachSteps grid start p k
  pqg : ∀ e ∈ s.pq, ∃ k, alook e.2.2 s.g_score = some k ∧
    k + hscore goal e.2.2 ≤ e.1
  fresh : ∀ p k, alook p s.g_score = some k → p ∉ s.visited →
    ∃ c, (k + hscore goal p, c, p) ∈ s.pq
  vis : ∀ w ∈ s.visited, ∃ k, alook w s.g_score = some k ∧
    MinSteps grid start w k ∧
    ∀ z ∈ neighbors grid w, ∃ m, alook z s.g_score = some m ∧ m ≤ k + 1
  goalNotVis : goal ∉ s.visited
  cfAdj : ∀ p q, alook p s.came_from = some q → p ∈ neighbors grid q ∧
    ∃ kp kq, alook p s.g_score = some kp ∧ alook q s.g_score = some kq ∧
      kq + 1 ≤ kp
  cfStart : alook start s.came_from = none
  gdom : ∀ p k, alook p s.g_score = some k →
    p = start ∨ ∃ q, alook p s.came_from = some q
  glen : ∀ p k, alook p s.g_score = some k → k ≤ s.came_from.length

/-- Invariant carried through the neighbour loop while expanding `curr`
(already added to `visited`, with exact shortest distance `k`): the full
invariant except the `vis` clause for `curr`, whose neighbour bounds
accumulate in `done`. -/
structure FoldInv (grid : List (List Nat)) (start goal curr : Pos) (k : Nat)
    (done : List Pos) (s : AState) : Prop where
  gstart : alook start s.g_score = some 0
  gub : ∀ p m, alook p s.g_score = some m → reachSteps grid start p m
  pqg : ∀ e ∈ s.pq, ∃ m, alook e.2.2 s.g_score = some m ∧
    m + hscore goal e.2.2 ≤ e.1
  fresh : ∀ p m, alook p s.g_score = some m → p ∉ s.visited →
    ∃ c, (m + hscore goal p, c, p) ∈ s.pq
  visOld : ∀ w ∈ s.visited, w ≠ curr → ∃ m, alook w s.g_score = some m ∧
    MinSteps grid start w m ∧
    ∀ z ∈ neighbors grid w, ∃ m', alook z s.g_score = some m' ∧ m' ≤ m + 1
  currIn : curr ∈ s.visited
  currG : alook curr s.g_score = some k
  currMin : MinSteps grid start curr k
  goalNotVis : goal ∉ s.visited
  cfAdj : ∀ p q, alook p s.came_from = some q → p ∈ neighbors grid q ∧
    ∃ kp kq, alook p s.g_score = some kp ∧ alook q s.g_score = some kq ∧
      kq + 1 ≤ kp
  cfStart : alook start s.came_from = none
  gdom : ∀ p m, alook p s.g_score = some m →
    p = start ∨ ∃ q, alook p s.came_from = some q
  glen : ∀ p m, alook p s.g_score = some m → m ≤ s.came_from.length
  doneB : ∀ z ∈ done, ∃ m, alook z s.g_score = some m ∧ m ≤ k + 1

/-- The in-bounds cells of the grid, as a finite set. -/
def boundsFinset (grid : List (List Nat)) : Finset Pos :=
  (Finset.range (rowsOf grid) ×ˢ Finset.range (colsOf grid)).image
    (fun rc => ((rc.1 : Int), (rc.2 : Int)))

/-- Invariant needed only for termination: `visited` has no duplicates and
holds only `start` or in-bounds walkable cells, and so does every queued
position. -/
structure TInv (grid : List (List Nat)) (start : Pos) (s : AState) :
    Prop where
  nodup : s.visited.Nodup
  visOk : ∀ p ∈ s.visited, p = start ∨ walkableB grid p = true
  pqOk : ∀ e ∈ s.pq, e.2.2 = start ∨ walkableB grid e.2.2 = true

/-- The state after `n` completed iterations of the `while pq:` loop;
`none` once the loop has returned. -/
def iterState (grid : List (List Nat)) (start goal : Pos) :
    Nat → Option AState
  | 0 => some (initState grid start goal)
  | n + 1 =>
    match iterState grid start goal n with
    | none => none
    | some s =>
      match stepA grid goal s with
      | Sum.inl _ => none
      | Sum.inr s' => some s'

/-- Counters in the queue are pairwise distinct and all below the next
counter to be assigned. -/
def CounterInv (s : AState) : Prop :=
  (s.pq.map (fun e => e.2.1)).Nodup ∧ ∀ e ∈ s.pq, e.2.1 < s.counter

/-! ### The copy of `astar` in `interactive.py`

`interactive.py` contains its own, textually identical, definition of
`astar` (the GUI around it is presentation glue).  It is embedded a
second time below, sharing only the models of the `heapq` library
(`popMin`) and of dictionary lookup (`alook`), which are the same
library for both files. -/

namespace Interactive

def rowsOf (grid : List (List Nat)) : Nat := grid.length

def colsOf (grid : List (List Nat)) : Nat := (grid.headD []).length

def cellAt (grid : List (List Nat)) (r c : Nat) : Option Nat :=
  (grid.get? r).bind (fun row => row.get? c)

def walkableB (grid : List (List Nat)) (p : Pos) : Bool :=
  decide (0 ≤ p.1) && decide (p.1 < (rowsOf grid : Int)) &&
  decide (0 ≤ p.2) && decide (p.2 < (colsOf grid : Int)) &&
  (cellAt grid p.1.toNat p.2.toNat == some 0)

def candidates (p : Pos) : List Pos :=
  [(p.1 + 1, p.2), (p.1 - 1, p.2), (p.1, p.2 + 1), (p.1, p.2 - 1)]

def neighbors (grid : List (List Nat)) (p : Pos) : List Pos :=
  (candidates p).filter (walkableB grid)

def hscore (goal p : Pos) : Nat :=
  (p.1 - goal.1).natAbs + (p.2 - goal.2).natAbs

def relaxPush (grid : List (List Nat)) (goal curr : Pos) (s : AState)
    (nb : Pos) : AState :=
  { pq := s.pq ++
      [((alook curr s.g_score).getD 0 + 1 + hscore goal nb, s.counter, nb)]
    came_from := (nb, curr) :: s.came_from
    g_score := (nb, (alook curr s.g_score).getD 0 + 1) :: s.g_score
    visited := s.visited
    counter := s.counter + 1 }

def relax (grid : List (List Nat)) (goal curr : Pos) (s : AState) (nb : Pos) :
    AState :=
  match alook nb s.g_score with
  | none => relaxPush grid goal curr s nb
  | some gnb =>
    if (alook curr s.g_score).getD 0 + 1 < gnb then
      relaxPush grid goal curr s nb
    else s

def expandAll (grid : List (List Nat)) (goal curr : Pos) (s : AState) :
    AState :=
  (neighbors grid curr).foldl (relax grid goal curr) s

def reconAux (cf : List (Pos × Pos)) : Nat → Pos → List Pos → List Pos
  | fuel, p, acc =>
    match alook p cf, fuel with
    | some q, fuel' + 1 => reconAux cf fuel' q (p :: acc)
    | _, _ => p :: acc

def reconstruct (cf : List (Pos × Pos)) (p : Pos) : List Pos :=
  reconAux cf cf.length p []

def stepA (grid : List (List Nat)) (goal : Pos) (s : AState) :
    Sum (Option (List Pos)) AState :=
  match popMin s.pq with
  | none => Sum.inl none
  | some (e, rest) =>
    let curr := e.2.2
    if curr = goal then Sum.inl (some (reconstruct s.came_from curr))
    else if curr ∈ s.visited then Sum.inr { s with pq := rest }
    else
      Sum.inr (expandAll grid goal curr
        { s with pq := rest, visited := curr :: s.visited })

def loopA (grid : List (List Nat)) (goal : Pos) :
    Nat → AState → Option (Option (List Pos))
  | 0, _ => none
  | fuel + 1, s =>
    match stepA grid goal s with
    | Sum.inl r => some r
    | Sum.inr s' => loopA grid goal fuel s'

def fuelFor (grid : List (List Nat)) : Nat :=
  5 * (rowsOf grid * colsOf grid + 1) + 2

def initState (grid : List (List Nat)) (start goal : Pos) : AState :=
  { pq := [(hscore goal start, 0, start)]
    came_from := []
    g_score := [(start, 0)]
    visited := []
    counter := 1 }

def astarRun (grid : List (List Nat)) (start goal : Pos) :
    Option (Option (List Pos)) :=
  loopA grid goal (fuelFor grid) (initState grid start goal)

def astar (grid : List (List Nat)) (start goal : Pos) :
    Option (List Pos) :=
  match astarRun grid start goal with
  | some r => r
  | none => none

end Interactive

/-- The demo grid of `astarclaude.py`'s `__main__` block: 5×5 with
obstacles at (1,1), (1,2), (2,4), (3,1), (3,3). -/
def exampleGrid : List (List Nat) :=
  [[0, 0, 0, 0, 0],
   [0, 1, 1, 0, 0],
   [0, 0, 0, 0, 1],
   [0, 1, 0, 1, 0],
   [0, 0, 0, 0, 0]]

/-! ### Queue-order lemmas -/

theorem entLtB_false_iff (a b : Entry) :
    entLtB a b = false ↔ b.1 ≤ a.1 ∧ (a.1 = b.1 → b.2.1 ≤ a.2.1) := by
  simp [entLtB]

theorem entLtB_irrefl (a : Entry) : entLtB a a = false := by
  simp [entLtB]

theorem entLtB_asymm {a b : Entry} (h : entLtB a b = true) :
    entLtB b a = false := by
  simp [entLtB] at h ⊢
  omega

theorem entLtB_false_trans {a b c : Entry} (h1 : entLtB a b = false)
    (h2 : entLtB b c = false) : entLtB a c = false := by
  rw [entLtB_false_iff] at h1 h2 ⊢
  omega

theorem selMin_mem (e : Entry) (l : List Entry) : selMin e l ∈ e :: l := by
  induction l generalizing e with
  | nil => simp [selMin]
  | cons x xs ih =>
    have h := ih (if entLtB x e then x else e)
    rw [show selMin e (x :: xs) = selMin (if entLtB x e then x else e) xs
      from rfl]
    rcases List.mem_cons.1 h with h | h
    · rw [h]
      split
      · exact List.mem_cons_of_mem _ (List.mem_cons_self _ _)
      · exact List.mem_cons_self _ _
    · exact List.mem_cons_of_mem _ (List.mem_cons_of_mem _ h)

theorem selMin_min (e : Entry) (l : List Entry) :
    ∀ x ∈ e :: l, entLtB x (selMin e l) = false := by
  induction l generalizing e with
  | nil =>
    intro x hx
    rcases List.mem_cons.1 hx with rfl | hx
    · exact entLtB_irrefl x
    · cases hx
  | cons y ys ih =>
    intro x hx
    have step : selMin e (y :: ys) = selMin (if entLtB y e then y else e) ys :=
      rfl
    rw [step]
    have hsel := ih (if entLtB y e then y else e)
    have hin : entLtB (if entLtB y e then y else e)
        (selMin (if entLtB y e then y else e) ys) = false :=
      hsel _ (List.mem_cons_self _ _)
    rcases List.mem_cons.1 hx with rfl | hx'
    · -- x = e
      by_cases hc : entLtB y x = true
      · have : entLtB x y = false := entLtB_asymm hc
        rw [if_pos hc] at hin hsel ⊢
        exact entLtB_false_trans this hin
      · rw [if_neg hc] at hin hsel ⊢
        exact hin
    rcases List.mem_cons.1 hx' with rfl | hx''
    · -- x = y
      by_cases hc : entLtB x e = true
      · rw [if_pos hc] at hin ⊢
        exact hin
      · have hc' : entLtB x e = false := by
          cases h : entLtB x e
          · rfl
          · exact absurd h hc
        rw [if_neg hc] at hin ⊢
        exact entLtB_false_trans hc' hin
    · exact hsel _ (List.mem_cons_of_mem _ hx'')

theorem popMin_none_iff (l : List Entry) : popMin l = none ↔ l = [] := by
  cases l <;> simp [popMin]

theorem popMin_spec {l : List Entry} {e : Entry} {rest : List Entry}
    (h : popMin l = some (e, rest)) :
    e ∈ l ∧ rest = l.erase e ∧ ∀ x ∈ l, entLtB x e = false := by
  cases l with
  | nil => cases h
  | cons x xs =>
    simp only [popMin] at h
    obtain ⟨he, hr⟩ := Prod.mk.injEq .. ▸ Option.some.injEq .. ▸ h
    cases h
    exact ⟨selMin_mem x xs, rfl, selMin_min x xs⟩

theorem popMin_rest_subset {l : List Entry} {e : Entry} {rest : List Entry}
    (h : popMin l = some (e, rest)) : rest ⊆ l := by
  obtain ⟨-, hr, -⟩ := popMin_spec h
  rw [hr]
  exact List.erase_subset _ _

theorem popMin_rest_length {l : List Entry} {e : Entry} {rest : List Entry}
    (h : popMin l = some (e, rest)) : rest.length = l.length - 1 := by
  obtain ⟨hm, hr, -⟩ := popMin_spec h
  rw [hr]
  exact List.length_erase_of_mem hm

theorem mem_popMin_rest {l : List Entry} {e x : Entry} {rest : List Entry}
    (h : popMin l = some (e, rest)) (hx : x ∈ l) (hne : x ≠ e) : x ∈ rest := by
  obtain ⟨-, hr, -⟩ := popMin_spec h
  rw [hr]
  exact (List.mem_erase_of_ne hne).2 hx

/-! ### Path lemmas -/

theorem mem_neighbors {grid : List (List Nat)} {p q : Pos} :
    q ∈ neighbors grid p ↔ q ∈ candidates p ∧ walkableB grid q = true := by
  simp [neighbors, List.mem_filter]

theorem walkable_of_mem_neighbors {grid : List (List Nat)} {p q : Pos}
    (h : q ∈ neighbors grid p) : walkableB grid q = true :=
  (mem_neighbors.1 h).2

theorem ne_of_mem_candidates {p q : Pos} (h : q ∈ candidates p) : q ≠ p := by
  simp [candidates] at h
  rcases h with h | h | h | h <;>
    · subst h
      intro heq
      obtain ⟨h1, h2⟩ := Prod.ext_iff.1 heq
      simp only [] at h1 h2
      omega

theorem ne_of_mem_neighbors {grid : List (List Nat)} {p q : Pos}
    (h : q ∈ neighbors grid p) : q ≠ p :=
  ne_of_mem_candidates (mem_neighbors.1 h).1

theorem hscore_step {goal p q : Pos} (h : q ∈ candidates p) :
    hscore goal p ≤ hscore goal q + 1 ∧ hscore goal q ≤ hscore goal p + 1 := by
  simp [candidates] at h
  rcases h with h | h | h | h <;>
    · obtain ⟨h1, h2⟩ := Prod.ext_iff.1 h.symm
      simp only [hscore, h1, h2] at *
      omega

theorem validPath_single {grid : List (List Nat)} {s : Pos}
    (h : walkableB grid s = true) : ValidPath grid s s [s] := by
  refine ⟨rfl, rfl, List.chain'_singleton s, ?_⟩
  intro p hp
  rcases List.mem_singleton.1 hp with rfl
  exact h

theorem validPath_snoc {grid : List (List Nat)} {s t q : Pos} {l : List Pos}
    (h : ValidPath grid s t l) (hq : q ∈ neighbors grid t) :
    ValidPath grid s q (l ++ [q]) := by
  obtain ⟨hh, hl, hc, hw⟩ := h
  have hne : l ≠ [] := by
    rintro rfl
    cases hh
  refine ⟨?_, List.getLast?_concat l, ?_, ?_⟩
  · rw [List.head?_append, hh]
    rfl
  · rw [List.chain'_append]
    refine ⟨hc, List.chain'_singleton q, ?_⟩
    intro x hx y hy
    simp only [List.head?_cons, Option.mem_def, Option.some.injEq] at hy
    subst hy
    rw [hl] at hx
    cases hx
    exact hq
  · intro p hp
    rcases List.mem_append.1 hp with hp | hp
    · exact hw p hp
    · rcases List.mem_singleton.1 hp with rfl
      exact walkable_of_mem_neighbors hq

theorem validPath_unsnoc {grid : List (List Nat)} {s t : Pos} {l : List Pos}
    {n : Nat} (h : ValidPath grid s t l) (hlen : l.length = n + 2) :
    ∃ l' w, l = l' ++ [t] ∧ ValidPath grid s w l' ∧ t ∈ neighbors grid w ∧
      l'.length = n + 1 := by
  obtain ⟨hh, hl, hc, hw⟩ := h
  rcases List.eq_nil_or_concat l with rfl | ⟨l', a, rfl⟩
  · cases hh
  rw [List.concat_eq_append] at hh hl hc hw hlen ⊢
  have ha : a = t := by
    rw [List.getLast?_concat] at hl
    exact Option.some.inj hl
  rw [ha] at hh hc hw ⊢
  have hne : l' ≠ [] := by
    rintro rfl
    simp at hlen
  obtain ⟨w, hw'⟩ := Option.isSome_iff_exists.1 (List.getLast?_isSome.2 hne)
  have hch := List.chain'_append.1 hc
  refine ⟨l', w, rfl, ⟨?_, hw', hch.1, ?_⟩, ?_, ?_⟩
  · cases l' with
    | nil => cases hne rfl
    | cons b l'' =>
      simp only [List.cons_append, List.head?_cons, Option.some.injEq] at hh ⊢
      exact hh
  · intro p hp
    exact hw p (List.mem_append.2 (Or.inl hp))
  · exact hch.2.2 w (by simp [hw']) t rfl
  · rw [List.length_append, List.length_singleton] at hlen
    omega

theorem validPath_walkable_last {grid : List (List Nat)} {s t : Pos}
    {l : List Pos} (h : ValidPath grid s t l) : walkableB grid t = true :=
  h.2.2.2 t (List.mem_of_mem_getLast? h.2.1)

theorem reachSteps_self {grid : List (List Nat)} {s : Pos}
    (h : walkableB grid s = true) : reachSteps grid s s 0 :=
  ⟨[s], validPath_single h, rfl⟩

theorem reachSteps_snoc {grid : List (List Nat)} {s t q : Pos} {n : Nat}
    (h : reachSteps grid s t n) (hq : q ∈ neighbors grid t) :
    reachSteps grid s q (n + 1) := by
  obtain ⟨l, hp, hlen⟩ := h
  exact ⟨l ++ [q], validPath_snoc hp hq, by simp [hlen]⟩

theorem reachSteps_unsnoc {grid : List (List Nat)} {s t : Pos} {n : Nat}
    (h : reachSteps grid s t (n + 1)) :
    ∃ w, reachSteps grid s w n ∧ t ∈ neighbors grid w := by
  obtain ⟨l, hp, hlen⟩ := h
  obtain ⟨l', w, -, hp', hnb, hlen'⟩ := validPath_unsnoc hp hlen
  exact ⟨w, ⟨l', hp', hlen'⟩, hnb⟩

theorem reachSteps_zero {grid : List (List Nat)} {s t : Pos}
    (h : reachSteps grid s t 0) : t = s := by
  obtain ⟨l, ⟨hh, hl, -, -⟩, hlen⟩ := h
  cases l with
  | nil => cases hh
  | cons a l' =>
    cases l' with
    | nil =>
      cases hh
      cases hl
      rfl
    | cons b l'' => simp at hlen

theorem reachSteps_walkable {grid : List (List Nat)} {s t : Pos} {n : Nat}
    (h : reachSteps grid s t n) : walkableB grid t = true := by
  obtain ⟨l, hp, -⟩ := h
  exact validPath_walkable_last hp

theorem minSteps_exists {grid : List (List Nat)} {s t : Pos} {n : Nat}
    (h : reachSteps grid s t n) :
    ∃ k, MinSteps grid s t k ∧ k ≤ n := by
  refine ⟨sInf {n | reachSteps grid s t n},
    ⟨Nat.sInf_mem ⟨n, h⟩, fun m hm => Nat.sInf_le hm⟩, Nat.sInf_le h⟩

theorem minSteps_unique {grid : List (List Nat)} {s t : Pos} {k k' : Nat}
    (h : MinSteps grid s t k) (h' : MinSteps grid s t k') : k = k' :=
  IsLeast.unique h h'

/-! ### Association-list lemmas -/

theorem alook_cons_self {β : Type} {k : Pos} {b : β} {l : List (Pos × β)} :
    alook k ((k, b) :: l) = some b := by
  simp [alook]

theorem alook_cons_ne {β : Type} {k a : Pos} {b : β} {l : List (Pos × β)}
    (h : k ≠ a) : alook k ((a, b) :: l) = alook k l := by
  simp [alook, h]

/-! ### The search invariant -/

theorem BI_init {grid : List (List Nat)} {start goal : Pos}
    (hS : walkableB grid start = true) :
    BI grid start goal (initState grid start goal) := by
  have hlk : ∀ p k, alook p (initState grid start goal).g_score = some k →
      p = start ∧ k = 0 := by
    intro p k hk
    simp only [initState] at hk
    by_cases hp : p = start
    · subst hp
      rw [alook_cons_self] at hk
      exact ⟨rfl, (Option.some.inj hk).symm⟩
    · rw [alook_cons_ne hp] at hk
      cases hk
  constructor
  case gstart => exact alook_cons_self
  case gub =>
    intro p k hk
    obtain ⟨rfl, rfl⟩ := hlk p k hk
    exact reachSteps_self hS
  case pqg =>
    intro e he
    simp only [initState, List.mem_singleton] at he
    subst he
    exact ⟨0, alook_cons_self, by simp⟩
  case fresh =>
    intro p k hk _
    obtain ⟨rfl, rfl⟩ := hlk p k hk
    exact ⟨0, by simp [initState]⟩
  case vis =>
    intro w hw
    cases hw
  case goalNotVis =>
    simp [initState]
  case cfAdj =>
    intro p q hpq
    cases hpq
  case cfStart => rfl
  case gdom =>
    intro p k hk
    exact Or.inl (hlk p k hk).1
  case glen =>
    intro p k hk
    obtain ⟨rfl, rfl⟩ := hlk p k hk
    simp

/-- Frontier lemma: for every reachable unvisited `u`, the queue holds an
entry whose `f` is at most `d(u) + h(u)` — the consequence of the
Manhattan heuristic's consistency that drives A*'s optimality. -/
theorem frontierEntry {grid : List (List Nat)} {start goal : Pos} {s : AState}
    (hbi : BI grid start goal s) :
    ∀ n u, MinSteps grid start u n → u ∉ s.visited →
    ∃ y m c, alook y s.g_score = some m ∧
      (m + hscore goal y, c, y) ∈ s.pq ∧
      m + hscore goal y ≤ n + hscore goal u := by
  intro n
  induction n using Nat.strong_induction_on with
  | _ n ih =>
    intro u hmin hnv
    cases n with
    | zero =>
      have hu : u = start := reachSteps_zero hmin.1
      subst hu
      obtain ⟨c, hc⟩ := hbi.fresh u 0 hbi.gstart hnv
      exact ⟨u, 0, c, hbi.gstart, hc, le_refl _⟩
    | succ n' =>
      obtain ⟨w, hrw, hnb⟩ := reachSteps_unsnoc hmin.1
      have hminw : MinSteps grid start w n' := by
        obtain ⟨k, hk, hkle⟩ := minSteps_exists hrw
        have h1 : n' + 1 ≤ k + 1 := hmin.2 (reachSteps_snoc hk.1 hnb)
        have h2 : k = n' := by omega
        rwa [h2] at hk
      by_cases hwv : w ∈ s.visited
      · obtain ⟨k, hgw, hminw', hnbb⟩ := hbi.vis w hwv
        have hk : k = n' := minSteps_unique hminw' hminw
        obtain ⟨m, hgu, hmle⟩ := hnbb u hnb
        have hge : n' + 1 ≤ m := hmin.2 (hbi.gub u m hgu)
        have hm : m = n' + 1 := by omega
        obtain ⟨c, hc⟩ := hbi.fresh u m hgu hnv
        exact ⟨u, m, c, hgu, hc, by omega⟩
      · obtain ⟨y, m, c, hy1, hy2, hy3⟩ := ih n' (by omega) w hminw hwv
        have hstep := (@hscore_step goal w u (mem_neighbors.1 hnb).1).1
        exact ⟨y, m, c, hy1, hy2, by omega⟩

/-- When an unvisited position is popped, its recorded `g` is exactly its
shortest distance from `start`. -/
theorem popMin_g_min {grid : List (List Nat)} {start goal : Pos} {s : AState}
    (hbi : BI grid start goal s) {f c : Nat} {curr : Pos} {rest : List Entry}
    (hpop : popMin s.pq = some ((f, c, curr), rest))
    (hnv : curr ∉ s.visited) :
    ∃ k, alook curr s.g_score = some k ∧ MinSteps grid start curr k := by
  obtain ⟨hmem, -, hminall⟩ := popMin_spec hpop
  obtain ⟨k, hg, hf⟩ := hbi.pqg _ hmem
  obtain ⟨n0, hmin0, hn0le⟩ := minSteps_exists (hbi.gub curr k hg)
  obtain ⟨y, m, c', hy1, hy2, hy3⟩ := frontierEntry hbi n0 curr hmin0 hnv
  have hle := hminall _ hy2
  rw [entLtB_false_iff] at hle
  have hk : k = n0 := by
    have h1 := hle.1
    simp only [] at h1 hf hy3
    omega
  exact ⟨n0, hk ▸ hg, hmin0⟩

/-! ### Preservation of the invariant -/

theorem alook_cons_iff {β : Type} {p a : Pos} {b : β} {v : β}
    {l : List (Pos × β)} :
    alook p ((a, b) :: l) = some v ↔
      (p = a ∧ v = b) ∨ (p ≠ a ∧ alook p l = some v) := by
  by_cases h : p = a
  · subst h
    rw [alook_cons_self]
    simp [eq_comm]
  · rw [alook_cons_ne h]
    simp [h]

theorem relax_foldInv {grid : List (List Nat)} {start goal curr : Pos}
    {k : Nat} {done : List Pos} {s : AState} {nb : Pos}
    (hnb : nb ∈ neighbors grid curr)
    (h : FoldInv grid start goal curr k done s) :
    FoldInv grid start goal curr k (nb :: done) (relax grid goal curr s nb) := by
  have hcg : (alook curr s.g_score).getD 0 = k := by rw [h.currG]; rfl
  have hnbc : nb ≠ curr := ne_of_mem_neighbors hnb
  have hcnb : curr ≠ nb := Ne.symm hnbc
  have hreach : reachSteps grid start nb (k + 1) :=
    reachSteps_snoc (h.gub curr k h.currG) hnb
  -- the common update case
  have hupd : (alook nb s.g_score = none ∨
      ∃ gnb, alook nb s.g_score = some gnb ∧ k + 1 < gnb) →
      FoldInv grid start goal curr k (nb :: done)
        (relaxPush grid goal curr s nb) := by
    intro hcase
    have hnbstart : nb ≠ start := by
      rintro rfl
      rcases hcase with hnone | ⟨gnb, hgnb, hlt⟩
      · rw [h.gstart] at hnone
        cases hnone
      · rw [h.gstart] at hgnb
        cases hgnb
        omega
    have hstartnb : start ≠ nb := Ne.symm hnbstart
    have hnbvis : nb ∉ s.visited := by
      intro hmem
      obtain ⟨m, hm, hmmin, -⟩ := h.visOld nb hmem hnbc
      rcases hcase with hnone | ⟨gnb, hgnb, hlt⟩
      · rw [hm] at hnone
        cases hnone
      · rw [hm] at hgnb
        cases hgnb
        have : m ≤ k + 1 := hmmin.2 hreach
        omega
    have hglk : ∀ p m, alook p ((nb, k + 1) :: s.g_score) = some m ↔
        (p = nb ∧ m = k + 1) ∨ (p ≠ nb ∧ alook p s.g_score = some m) :=
      fun p m => alook_cons_iff
    constructor
    case gstart =>
      show alook start ((nb, _) :: s.g_score) = some 0
      rw [hcg, alook_cons_ne hstartnb]
      exact h.gstart
    case gub =>
      intro p m hp
      rw [show (relaxPush grid goal curr s nb).g_score =
        (nb, k + 1) :: s.g_score by simp [relaxPush, hcg]] at hp
      rcases (hglk p m).1 hp with ⟨rfl, rfl⟩ | ⟨-, hold⟩
      · exact hreach
      · exact h.gub p m hold
    case pqg =>
      intro e he
      rw [show (relaxPush grid goal curr s nb).g_score =
        (nb, k + 1) :: s.g_score by simp [relaxPush, hcg]]
      rw [show (relaxPush grid goal curr s nb).pq =
        s.pq ++ [(k + 1 + hscore goal nb, s.counter, nb)]
        by simp [relaxPush, hcg]] at he
      rcases List.mem_append.1 he with he | he
      · obtain ⟨m, hm, hle⟩ := h.pqg e he
        by_cases hpe : e.2.2 = nb
        · rcases hcase with hnone | ⟨gnb, hgnb, hlt⟩
          · rw [hpe, hnone] at hm
            cases hm
          · rw [hpe, hgnb] at hm
            cases hm
            refine ⟨k + 1, (hglk _ _).2 (Or.inl ⟨hpe, rfl⟩), ?_⟩
            rw [hpe] at hle ⊢
            omega
        · exact ⟨m, (hglk _ _).2 (Or.inr ⟨hpe, hm⟩), hle⟩
      · rcases List.mem_singleton.1 he with rfl
        exact ⟨k + 1, (hglk _ _).2 (Or.inl ⟨rfl, rfl⟩), le_refl _⟩
    case fresh =>
      intro p m hp hpv
      rw [show (relaxPush grid goal curr s nb).g_score =
        (nb, k + 1) :: s.g_score by simp [relaxPush, hcg]] at hp
      rw [show (relaxPush grid goal curr s nb).visited = s.visited
        by simp [relaxPush]] at hpv
      rw [show (relaxPush grid goal curr s nb).pq =
        s.pq ++ [(k + 1 + hscore goal nb, s.counter, nb)]
        by simp [relaxPush, hcg]]
      rcases (hglk p m).1 hp with ⟨rfl, rfl⟩ | ⟨hne, hold⟩
      · exact ⟨s.counter, List.mem_append.2 (Or.inr (List.mem_singleton.2 rfl))⟩
      · obtain ⟨c, hc⟩ := h.fresh p m hold hpv
        exact ⟨c, List.mem_append.2 (Or.inl hc)⟩
    case visOld =>
      intro w hw hwc
      rw [show (relaxPush grid goal curr s nb).visited = s.visited
        by simp [relaxPush]] at hw
      have hwnb : w ≠ nb := by
        rintro rfl
        exact hnbvis hw
      obtain ⟨m, hm, hmmin, hnbb⟩ := h.visOld w hw hwc
      refine ⟨m, ?_, hmmin, ?_⟩
      · rw [show (relaxPush grid goal curr s nb).g_score =
          (nb, k + 1) :: s.g_score by simp [relaxPush, hcg]]
        rw [alook_cons_ne hwnb]
        exact hm
      · intro z hz
        obtain ⟨m', hm', hle'⟩ := hnbb z hz
        rw [show (relaxPush grid goal curr s nb).g_score =
          (nb, k + 1) :: s.g_score by simp [relaxPush, hcg]]
        by_cases hznb : z = nb
        · subst hznb
          refine ⟨k + 1, alook_cons_self, ?_⟩
          rcases hcase with hnone | ⟨gnb, hgnb, hlt⟩
          · rw [hm'] at hnone
            cases hnone
          · rw [hm'] at hgnb
            cases hgnb
            omega
        · exact ⟨m', by rw [alook_cons_ne hznb]; exact hm', hle'⟩
    case currIn =>
      show curr ∈ s.visited
      exact h.currIn
    case currG =>
      show alook curr ((nb, _) :: s.g_score) = some k
      rw [hcg, alook_cons_ne hcnb]
      exact h.currG
    case currMin => exact h.currMin
    case goalNotVis =>
      show goal ∉ s.visited
      exact h.goalNotVis
    case cfAdj =>
      intro p q hpq
      rw [show (relaxPush grid goal curr s nb).came_from =
        (nb, curr) :: s.came_from by simp [relaxPush]] at hpq
      rw [show (relaxPush grid goal curr s nb).g_score =
        (nb, k + 1) :: s.g_score by simp [relaxPush, hcg]]
      rcases alook_cons_iff.1 hpq with ⟨rfl, rfl⟩ | ⟨hne, hold⟩
      · refine ⟨hnb, k + 1, k, alook_cons_self, ?_, le_refl _⟩
        rw [alook_cons_ne hcnb]
        exact h.currG
      · obtain ⟨hmem, kp, kq, hkp, hkq, hlt⟩ := h.cfAdj p q hold
        refine ⟨hmem, kp, ?_⟩
        by_cases hqnb : q = nb
        · subst hqnb
          refine ⟨k + 1, ?_, alook_cons_self, ?_⟩
          · rw [alook_cons_ne hne]
            exact hkp
          · rcases hcase with hnone | ⟨gnb, hgnb, hlt'⟩
            · rw [hkq] at hnone
              cases hnone
            · rw [hkq] at hgnb
              cases hgnb
              omega
        · refine ⟨kq, ?_, ?_, hlt⟩
          · rw [alook_cons_ne hne]
            exact hkp
          · rw [alook_cons_ne hqnb]
            exact hkq
    case cfStart =>
      show alook start ((nb, curr) :: s.came_from) = none
      rw [alook_cons_ne hstartnb]
      exact h.cfStart
    case gdom =>
      intro p m hp
      rw [show (relaxPush grid goal curr s nb).g_score =
        (nb, k + 1) :: s.g_score by simp [relaxPush, hcg]] at hp
      rw [show (relaxPush grid goal curr s nb).came_from =
        (nb, curr) :: s.came_from by simp [relaxPush]]
      rcases (hglk p m).1 hp with ⟨rfl, rfl⟩ | ⟨hne, hold⟩
      · exact Or.inr ⟨curr, alook_cons_self⟩
      · rcases h.gdom p m hold with hstart | ⟨q, hq⟩
        · exact Or.inl hstart
        · exact Or.inr ⟨q, by rw [alook_cons_ne hne]; exact hq⟩
    case glen =>
      intro p m hp
      rw [show (relaxPush grid goal curr s nb).g_score =
        (nb, k + 1) :: s.g_score by simp [relaxPush, hcg]] at hp
      rw [show (relaxPush grid goal curr s nb).came_from =
        (nb, curr) :: s.came_from by simp [relaxPush]]
      simp only [List.length_cons]
      rcases (hglk p m).1 hp with ⟨rfl, rfl⟩ | ⟨-, hold⟩
      · have := h.glen curr k h.currG
        omega
      · have := h.glen p m hold
        omega
    case doneB =>
      intro z hz
      rw [show (relaxPush grid goal curr s nb).g_score =
        (nb, k + 1) :: s.g_score by simp [relaxPush, hcg]]
      rcases List.mem_cons.1 hz with rfl | hz'
      · exact ⟨k + 1, alook_cons_self, le_refl _⟩
      · obtain ⟨m, hm, hle⟩ := h.doneB z hz'
        by_cases hznb : z = nb
        · subst hznb
          refine ⟨k + 1, alook_cons_self, le_refl _⟩
        · exact ⟨m, by rw [alook_cons_ne hznb]; exact hm, hle⟩
  -- dispatch on the three branches of `relax`
  unfold relax
  cases hg : alook nb s.g_score with
  | none => exact hupd (Or.inl hg)
  | some gnb =>
    show FoldInv grid start goal curr k (nb :: done)
      (if (alook curr s.g_score).getD 0 + 1 < gnb then
        relaxPush grid goal curr s nb else s)
    rw [hcg]
    by_cases htg : k + 1 < gnb
    · rw [if_pos htg]
      exact hupd (Or.inr ⟨gnb, hg, htg⟩)
    · rw [if_neg htg]
      -- no update: only the new `doneB` entry is needed
      refine ⟨h.gstart, h.gub, h.pqg, h.fresh, h.visOld, h.currIn, h.currG,
        h.currMin, h.goalNotVis, h.cfAdj, h.cfStart, h.gdom, h.glen, ?_⟩
      intro z hz
      rcases List.mem_cons.1 hz with rfl | hz'
      · exact ⟨gnb, hg, by omega⟩
      · exact h.doneB z hz'

theorem foldl_foldInv {grid : List (List Nat)} {start goal curr : Pos}
    {k : Nat} :
    ∀ (todo : List Pos) (s : AState) (done : List Pos),
    (∀ z ∈ todo, z ∈ neighbors grid curr) →
    FoldInv grid start goal curr k done s →
    ∃ done', (∀ z, z ∈ done ∨ z ∈ todo → z ∈ done') ∧
      FoldInv grid start goal curr k done'
        (todo.foldl (relax grid goal curr) s) := by
  intro todo
  induction todo with
  | nil =>
    intro s done _ h
    exact ⟨done, fun z hz =>
      hz.elim id (fun h' => absurd h' (List.not_mem_nil z)), h⟩
  | cons nb rest ih =>
    intro s done hsub h
    have h1 := relax_foldInv (hsub nb (List.mem_cons_self _ _)) h
    obtain ⟨done', hcov, hinv⟩ := ih (relax grid goal curr s nb) (nb :: done)
      (fun z hz => hsub z (List.mem_cons_of_mem _ hz)) h1
    refine ⟨done', ?_, hinv⟩
    intro z hz
    rcases hz with hz | hz
    · exact hcov z (Or.inl (List.mem_cons_of_mem _ hz))
    · rcases List.mem_cons.1 hz with rfl | hz'
      · exact hcov z (Or.inl (List.mem_cons_self _ _))
      · exact hcov z (Or.inr hz')

theorem BI_skip {grid : List (List Nat)} {start goal : Pos} {s : AState}
    (hbi : BI grid start goal s) {f c : Nat} {curr : Pos} {rest : List Entry}
    (hpop : popMin s.pq = some ((f, c, curr), rest))
    (hv : curr ∈ s.visited) :
    BI grid start goal { s with pq := rest } := by
  refine ⟨hbi.gstart, hbi.gub, ?_, ?_, hbi.vis, hbi.goalNotVis, hbi.cfAdj,
    hbi.cfStart, hbi.gdom, hbi.glen⟩
  · intro e he
    exact hbi.pqg e (popMin_rest_subset hpop he)
  · intro p m hp hpv
    obtain ⟨c0, hc0⟩ := hbi.fresh p m hp hpv
    refine ⟨c0, mem_popMin_rest hpop hc0 ?_⟩
    intro heq
    apply hpv
    have : p = curr := congrArg (fun e : Entry => e.2.2) heq
    rw [this]
    exact hv

theorem BI_expand {grid : List (List Nat)} {start goal : Pos} {s : AState}
    (hbi : BI grid start goal s) {f c : Nat} {curr : Pos} {rest : List Entry}
    (hpop : popMin s.pq = some ((f, c, curr), rest))
    (hgoal : curr ≠ goal) (hnv : curr ∉ s.visited) :
    BI grid start goal
      (expandAll grid goal curr
        { s with pq := rest, visited := curr :: s.visited }) := by
  obtain ⟨k, hg, hmin⟩ := popMin_g_min hbi hpop hnv
  have hf1 : FoldInv grid start goal curr k []
      { s with pq := rest, visited := curr :: s.visited } := by
    constructor
    case gstart => exact hbi.gstart
    case gub => exact hbi.gub
    case pqg =>
      intro e he
      exact hbi.pqg e (popMin_rest_subset hpop he)
    case fresh =>
      intro p m hp hpv
      simp only [List.mem_cons, not_or] at hpv
      obtain ⟨hpc, hpvis⟩ := hpv
      obtain ⟨c0, hc0⟩ := hbi.fresh p m hp hpvis
      refine ⟨c0, mem_popMin_rest hpop hc0 ?_⟩
      intro heq
      exact hpc (congrArg (fun e : Entry => e.2.2) heq)
    case visOld =>
      intro w hw hwc
      rcases List.mem_cons.1 hw with rfl | hw'
      · exact absurd rfl hwc
      · exact hbi.vis w hw'
    case currIn => exact List.mem_cons_self _ _
    case currG => exact hg
    case currMin => exact hmin
    case goalNotVis =>
      intro hmem
      rcases List.mem_cons.1 hmem with heq | hmem'
      · exact hgoal heq.symm
      · exact hbi.goalNotVis hmem'
    case cfAdj => exact hbi.cfAdj
    case cfStart => exact hbi.cfStart
    case gdom => exact hbi.gdom
    case glen => exact hbi.glen
    case doneB =>
      intro z hz
      cases hz
  obtain ⟨done', hcov, hinv⟩ :=
    foldl_foldInv (neighbors grid curr) _ [] (fun z hz => hz) hf1
  refine ⟨hinv.gstart, hinv.gub, hinv.pqg, hinv.fresh, ?_, hinv.goalNotVis,
    hinv.cfAdj, hinv.cfStart, hinv.gdom, hinv.glen⟩
  intro w hw
  by_cases hwc : w = curr
  · subst hwc
    exact ⟨k, hinv.currG, hinv.currMin,
      fun z hz => hinv.doneB z (hcov z (Or.inr hz))⟩
  · exact hinv.visOld w hw hwc

/-! ### Unfolding lemmas for the loop -/

theorem loopA_succ (grid : List (List Nat)) (goal : Pos) (fuel : Nat)
    (s : AState) :
    loopA grid goal (fuel + 1) s =
      match stepA grid goal s with
      | Sum.inl r => some r
      | Sum.inr s' => loopA grid goal fuel s' := rfl

theorem stepA_empty {grid : List (List Nat)} {goal : Pos} {s : AState}
    (h : popMin s.pq = none) : stepA grid goal s = Sum.inl none := by
  unfold stepA
  rw [h]

theorem stepA_goal {grid : List (List Nat)} {goal : Pos} {s : AState}
    {f c : Nat} {rest : List Entry}
    (h : popMin s.pq = some ((f, c, goal), rest)) :
    stepA grid goal s = Sum.inl (some (reconstruct s.came_from goal)) := by
  unfold stepA
  rw [h]
  simp

theorem stepA_skip {grid : List (List Nat)} {goal : Pos} {s : AState}
    {f c : Nat} {curr : Pos} {rest : List Entry}
    (h : popMin s.pq = some ((f, c, curr), rest))
    (h1 : curr ≠ goal) (h2 : curr ∈ s.visited) :
    stepA grid goal s = Sum.inr { s with pq := rest } := by
  unfold stepA
  rw [h]
  simp [h1, h2]

theorem stepA_expand {grid : List (List Nat)} {goal : Pos} {s : AState}
    {f c : Nat} {curr : Pos} {rest : List Entry}
    (h : popMin s.pq = some ((f, c, curr), rest))
    (h1 : curr ≠ goal) (h2 : curr ∉ s.visited) :
    stepA grid goal s = Sum.inr
      (expandAll grid goal curr
        { s with pq := rest, visited := curr :: s.visited }) := by
  unfold stepA
  rw [h]
  simp [h1, h2]

/-! ### Path reconstruction is a shortest valid path -/

theorem reconAux_valid {grid : List (List Nat)} {start goal : Pos}
    {s : AState} (hbi : BI grid start goal s)
    (hS : walkableB grid start = true) :
    ∀ k p, alook p s.g_score = some k →
    ∀ fuel, k ≤ fuel → ∀ acc,
    ∃ l, reconAux s.came_from fuel p acc = l ++ acc ∧
      ValidPath grid start p l ∧ l.length ≤ k + 1 := by
  intro k
  induction k using Nat.strong_induction_on with
  | _ k ih =>
    intro p hp fuel hfuel acc
    cases hcf : alook p s.came_from with
    | none =>
      have hps : p = start := by
        rcases hbi.gdom p k hp with h | ⟨q, hq⟩
        · exact h
        · rw [hcf] at hq
          cases hq
      subst hps
      refine ⟨[p], ?_, validPath_single hS, by
        simp only [List.length_singleton]
        omega⟩
      cases fuel <;> simp [reconAux, hcf]
    | some q =>
      obtain ⟨hmem, kp, kq, hkp, hkq, hlt⟩ := hbi.cfAdj p q hcf
      have hkpk : kp = k := by
        rw [hp] at hkp
        exact (Option.some.inj hkp).symm
      cases fuel with
      | zero => omega
      | succ fuel' =>
        obtain ⟨l', hl'eq, hl'valid, hl'len⟩ :=
          ih kq (by omega) q hkq fuel' (by omega) (p :: acc)
        refine ⟨l' ++ [p], ?_, validPath_snoc hl'valid hmem, ?_⟩
        · have hstep : reconAux s.came_from (fuel' + 1) p acc =
              reconAux s.came_from fuel' q (p :: acc) := by
            simp [reconAux, hcf]
          rw [hstep, hl'eq]
          simp
        · simp only [List.length_append, List.length_singleton]
          omega

theorem reconstruct_goal {grid : List (List Nat)} {start goal : Pos}
    {s : AState} (hbi : BI grid start goal s)
    (hS : walkableB grid start = true) {k : Nat}
    (hg : alook goal s.g_score = some k)
    (hmin : MinSteps grid start goal k) :
    ValidPath grid start goal (reconstruct s.came_from goal) ∧
    (reconstruct s.came_from goal).length = k + 1 := by
  have hfuel : k ≤ s.came_from.length := hbi.glen goal k hg
  obtain ⟨l, hleq, hlvalid, hllen⟩ :=
    reconAux_valid hbi hS k goal hg s.came_from.length hfuel []
  have hrec : reconstruct s.came_from goal = l := by
    rw [reconstruct, hleq]
    simp
  rw [hrec]
  have hne : l ≠ [] := by
    rintro rfl
    cases hlvalid.1
  have hpos : 1 ≤ l.length := List.length_pos.2 hne
  have hreach : reachSteps grid start goal (l.length - 1) :=
    ⟨l, hlvalid, by omega⟩
  have hge := hmin.2 hreach
  exact ⟨hlvalid, by omega⟩

/-! ### Soundness of the loop -/

theorem loopA_sound {grid : List (List Nat)} {start goal : Pos}
    (hS : walkableB grid start = true) :
    ∀ (fuel : Nat) (s : AState), BI grid start goal s →
    ∀ r, loopA grid goal fuel s = some r →
    (r = none → ∀ n, ¬ reachSteps grid start goal n) ∧
    (∀ l, r = some l → ValidPath grid start goal l ∧
      MinSteps grid start goal (l.length - 1)) := by
  intro fuel
  induction fuel with
  | zero =>
    intro s hbi r hr
    cases hr
  | succ fuel ih =>
    intro s hbi r hr
    rw [loopA_succ] at hr
    cases hpop : popMin s.pq with
    | none =>
      rw [stepA_empty hpop] at hr
      cases hr
      constructor
      · intro _ n hreach
        obtain ⟨k0, hmin0, -⟩ := minSteps_exists hreach
        obtain ⟨y, m, c, -, hy2, -⟩ :=
          frontierEntry hbi k0 goal hmin0 hbi.goalNotVis
        rw [(popMin_none_iff _).1 hpop] at hy2
        cases hy2
      · intro l hl
        cases hl
    | some pr =>
      obtain ⟨⟨f, c, curr⟩, rest⟩ := pr
      by_cases hcg : curr = goal
      · subst hcg
        rw [stepA_goal hpop] at hr
        cases hr
        obtain ⟨k, hg, hmin⟩ := popMin_g_min hbi hpop hbi.goalNotVis
        obtain ⟨hvalid, hlen⟩ := reconstruct_goal hbi hS hg hmin
        constructor
        · intro hcon
          cases hcon
        · intro l hl
          cases hl
          refine ⟨hvalid, ?_⟩
          rw [hlen]
          simpa using hmin
      · by_cases hcv : curr ∈ s.visited
        · rw [stepA_skip hpop hcg hcv] at hr
          exact ih _ (BI_skip hbi hpop hcv) r hr
        · rw [stepA_expand hpop hcg hcv] at hr
          exact ih _ (BI_expand hbi hpop hcg hcv) r hr

/-! ### Termination: the fuel `fuelFor` is never exhausted -/

theorem mem_boundsFinset_of_walkable {grid : List (List Nat)} {p : Pos}
    (hp : walkableB grid p = true) : p ∈ boundsFinset grid := by
  simp only [walkableB, Bool.and_eq_true, decide_eq_true_eq] at hp
  obtain ⟨⟨⟨⟨h1, h2⟩, h3⟩, h4⟩, -⟩ := hp
  simp only [boundsFinset, Finset.mem_image, Finset.mem_product,
    Finset.mem_range]
  refine ⟨(p.1.toNat, p.2.toNat), ⟨?_, ?_⟩, ?_⟩
  · omega
  · omega
  · obtain ⟨a, b⟩ := p
    simp only [Prod.mk.injEq]
    constructor <;> omega

theorem boundsFinset_card (grid : List (List Nat)) :
    (boundsFinset grid).card ≤ rowsOf grid * colsOf grid := by
  calc (boundsFinset grid).card
      ≤ (Finset.range (rowsOf grid) ×ˢ Finset.range (colsOf grid)).card :=
        Finset.card_image_le
    _ = rowsOf grid * colsOf grid := by
        rw [Finset.card_product, Finset.card_range, Finset.card_range]

theorem visited_card_le {grid : List (List Nat)} {start : Pos} {s : AState}
    (h : TInv grid start s) :
    s.visited.length ≤ rowsOf grid * colsOf grid + 1 := by
  have hsub : s.visited.toFinset ⊆ insert start (boundsFinset grid) := by
    intro p hp
    rw [List.mem_toFinset] at hp
    rcases h.visOk p hp with rfl | hw
    · exact Finset.mem_insert_self _ _
    · exact Finset.mem_insert_of_mem (mem_boundsFinset_of_walkable hw)
  have h1 : s.visited.toFinset.card = s.visited.length :=
    List.toFinset_card_of_nodup h.nodup
  have h2 := Finset.card_le_card hsub
  have h3 := Finset.card_insert_le start (boundsFinset grid)
  have h4 := boundsFinset_card grid
  omega

theorem relax_visited (grid : List (List Nat)) (goal curr : Pos)
    (s : AState) (nb : Pos) :
    (relax grid goal curr s nb).visited = s.visited := by
  cases h : alook nb s.g_score with
  | none => simp [relax, relaxPush, h]
  | some gnb =>
    by_cases htg : (alook curr s.g_score).getD 0 + 1 < gnb
    · simp [relax, relaxPush, h, htg]
    · simp [relax, h, htg]

theorem relax_pq_len (grid : List (List Nat)) (goal curr : Pos)
    (s : AState) (nb : Pos) :
    (relax grid goal curr s nb).pq.length ≤ s.pq.length + 1 := by
  cases h : alook nb s.g_score with
  | none => simp [relax, relaxPush, h]
  | some gnb =>
    by_cases htg : (alook curr s.g_score).getD 0 + 1 < gnb
    · simp [relax, relaxPush, h, htg]
    · simp [relax, h, htg]

theorem relax_pq_mem (grid : List (List Nat)) (goal curr : Pos)
    (s : AState) (nb : Pos) :
    ∀ e ∈ (relax grid goal curr s nb).pq, e ∈ s.pq ∨ e.2.2 = nb := by
  have hpush : ∀ e ∈ (relaxPush grid goal curr s nb).pq,
      e ∈ s.pq ∨ e.2.2 = nb := by
    intro e he
    simp only [relaxPush] at he
    rcases List.mem_append.1 he with he | he
    · exact Or.inl he
    · rcases List.mem_singleton.1 he with rfl
      exact Or.inr rfl
  cases h : alook nb s.g_score with
  | none =>
    rw [show relax grid goal curr s nb = relaxPush grid goal curr s nb
      from by simp [relax, h]]
    exact hpush
  | some gnb =>
    by_cases htg : (alook curr s.g_score).getD 0 + 1 < gnb
    · rw [show relax grid goal curr s nb = relaxPush grid goal curr s nb
        from by simp [relax, h, htg]]
      exact hpush
    · rw [show relax grid goal curr s nb = s from by simp [relax, h, htg]]
      intro e he
      exact Or.inl he

theorem foldl_relax_visited (grid : List (List Nat)) (goal curr : Pos) :
    ∀ (todo : List Pos) (s : AState),
    (todo.foldl (relax grid goal curr) s).visited = s.visited := by
  intro todo
  induction todo with
  | nil => intro s; rfl
  | cons nb rest ih =>
    intro s
    rw [List.foldl_cons, ih, relax_visited]

theorem foldl_relax_pq_len (grid : List (List Nat)) (goal curr : Pos) :
    ∀ (todo : List Pos) (s : AState),
    (todo.foldl (relax grid goal curr) s).pq.length ≤
      s.pq.length + todo.length := by
  intro todo
  induction todo with
  | nil => intro s; simp
  | cons nb rest ih =>
    intro s
    calc ((nb :: rest).foldl (relax grid goal curr) s).pq.length
        ≤ (relax grid goal curr s nb).pq.length + rest.length := ih _
      _ ≤ s.pq.length + 1 + rest.length := by
          have := relax_pq_len grid goal curr s nb
          omega
      _ = s.pq.length + (nb :: rest).length := by
          simp only [List.length_cons]
          omega

theorem foldl_relax_pq_mem (grid : List (List Nat)) (goal curr : Pos) :
    ∀ (todo : List Pos) (s : AState),
    ∀ e ∈ (todo.foldl (relax grid goal curr) s).pq, e ∈ s.pq ∨ e.2.2 ∈ todo := by
  intro todo
  induction todo with
  | nil =>
    intro s e he
    exact Or.inl he
  | cons nb rest ih =>
    intro s e he
    rcases ih (relax grid goal curr s nb) e he with h | h
    · rcases relax_pq_mem grid goal curr s nb e h with h' | h'
      · exact Or.inl h'
      · exact Or.inr (by rw [h']; exact List.mem_cons_self _ _)
    · exact Or.inr (List.mem_cons_of_mem _ h)

theorem neighbors_len_le (grid : List (List Nat)) (p : Pos) :
    (neighbors grid p).length ≤ 4 := by
  have := List.length_filter_le (walkableB grid) (candidates p)
  simpa [candidates] using this

theorem loopA_terminates {grid : List (List Nat)} {start goal : Pos} :
    ∀ (fuel : Nat) (s : AState), TInv grid start s →
    s.pq.length + 5 * (rowsOf grid * colsOf grid + 1 - s.visited.length)
      < fuel →
    ∃ r, loopA grid goal fuel s = some r := by
  intro fuel
  induction fuel with
  | zero =>
    intro s _ hm
    omega
  | succ fuel ih =>
    intro s hti hm
    cases hpop : popMin s.pq with
    | none =>
      exact ⟨none, by rw [loopA_succ, stepA_empty hpop]⟩
    | some pr =>
      obtain ⟨⟨f, c, curr⟩, rest⟩ := pr
      have hne : s.pq ≠ [] := by
        intro h
        rw [(popMin_none_iff s.pq).2 h] at hpop
        cases hpop
      have hpos : 1 ≤ s.pq.length := by
        cases hq : s.pq with
        | nil => exact absurd hq hne
        | cons a l => simp [hq]
      have hrest := popMin_rest_length hpop
      by_cases hcg : curr = goal
      · subst hcg
        exact ⟨some (reconstruct s.came_from curr),
          by rw [loopA_succ, stepA_goal hpop]⟩
      · by_cases hcv : curr ∈ s.visited
        · have hti' : TInv grid start { s with pq := rest } :=
            ⟨hti.nodup, hti.visOk,
             fun e he => hti.pqOk e (popMin_rest_subset hpop he)⟩
          obtain ⟨r, hr⟩ := ih { s with pq := rest } hti' (by
            simp only []
            omega)
          exact ⟨r, by rw [loopA_succ, stepA_skip hpop hcg hcv]; exact hr⟩
        · set s1 : AState :=
            { s with pq := rest, visited := curr :: s.visited } with hs1
          have hcurrOk : curr = start ∨ walkableB grid curr = true :=
            hti.pqOk (f, c, curr) (popMin_spec hpop).1
          have hti1 : TInv grid start s1 :=
            ⟨List.nodup_cons.2 ⟨hcv, hti.nodup⟩,
             fun p hp => by
               rcases List.mem_cons.1 hp with rfl | hp'
               · exact hcurrOk
               · exact hti.visOk p hp',
             fun e he => hti.pqOk e (popMin_rest_subset hpop he)⟩
          set s2 := expandAll grid goal curr s1 with hs2
          have hti2 : TInv grid start s2 := by
            refine ⟨?_, ?_, ?_⟩
            · rw [hs2, expandAll, foldl_relax_visited]
              exact hti1.nodup
            · rw [hs2, expandAll, foldl_relax_visited]
              exact hti1.visOk
            · intro e he
              rw [hs2, expandAll] at he
              rcases foldl_relax_pq_mem grid goal curr _ s1 e he with h | h
              · exact hti1.pqOk e h
              · exact Or.inr (walkable_of_mem_neighbors h)
          have hvlen : s2.visited.length = s.visited.length + 1 := by
            rw [hs2, expandAll, foldl_relax_visited]
            simp [hs1]
          have hvle := visited_card_le hti2
          have hplen : s2.pq.length ≤ s.pq.length - 1 + 4 := by
            have h1 := foldl_relax_pq_len grid goal curr
              (neighbors grid curr) s1
            have h2 := neighbors_len_le grid curr
            rw [← expandAll, ← hs2] at h1
            simp only [hs1] at h1
            omega
          obtain ⟨r, hr⟩ := ih s2 hti2 (by omega)
          exact ⟨r, by rw [loopA_succ, stepA_expand hpop hcg hcv]; exact hr⟩

/-! ### Top-level correctness of `astar` -/

theorem astarRun_isSome (grid : List (List Nat)) (start goal : Pos) :
    ∃ r, astarRun grid start goal = some r := by
  unfold astarRun
  apply @loopA_terminates grid start goal (fuelFor grid)
    (initState grid start goal)
  · refine ⟨List.nodup_nil, ?_, ?_⟩
    · intro p hp
      cases hp
    · intro e he
      rcases List.mem_singleton.1 he with rfl
      exact Or.inl rfl
  · simp only [initState, fuelFor, List.length_singleton, List.length_nil]
    omega

theorem astar_eq_of_run {grid : List (List Nat)} {start goal : Pos}
    {r : Option (List Pos)} (h : astarRun grid start goal = some r) :
    astar grid start goal = r := by
  unfold astar
  rw [h]

/-- Combined specification of `astar` for a walkable in-bounds `start`:
a returned path is a valid shortest path, and `none` means no route. -/
theorem astar_spec {grid : List (List Nat)} {start goal : Pos}
    (hS : walkableB grid start = true) :
    (∀ l, astar grid start goal = some l →
      ValidPath grid start goal l ∧ MinSteps grid start goal (l.length - 1)) ∧
    (astar grid start goal = none → ∀ n, ¬ reachSteps grid start goal n) := by
  obtain ⟨r, hr⟩ := astarRun_isSome grid start goal
  have heq := astar_eq_of_run hr
  have hs := loopA_sound hS (fuelFor grid) _ (BI_init hS) r hr
  constructor
  · intro l hl
    rw [heq] at hl
    exact hs.2 l hl
  · intro hn n
    rw [heq] at hn
    exact hs.1 hn n

theorem adjacent_of_mem_candidates {p q : Pos} (h : q ∈ candidates p) :
    Adjacent p q := by
  simp only [candidates, List.mem_cons, List.mem_singleton,
    List.not_mem_nil, or_false] at h
  rcases h with h | h | h | h <;> subst h
  · exact Or.inr ⟨rfl, by show (p.1 - (p.1 + 1)).natAbs = 1; omega⟩
  · exact Or.inr ⟨rfl, by show (p.1 - (p.1 - 1)).natAbs = 1; omega⟩
  · exact Or.inl ⟨rfl, by show (p.2 - (p.2 + 1)).natAbs = 1; omega⟩
  · exact Or.inl ⟨rfl, by show (p.2 - (p.2 - 1)).natAbs = 1; omega⟩

/-! ### A blocked or out-of-bounds goal is never popped -/

theorem loopA_no_goal {grid : List (List Nat)} {start goal : Pos}
    (hne : start ≠ goal) (hG : walkableB grid goal = false) :
    ∀ (fuel : Nat) (s : AState),
    (∀ e ∈ s.pq, e.2.2 = start ∨ walkableB grid e.2.2 = true) →
    ∀ r, loopA grid goal fuel s = some r → r = none := by
  intro fuel
  induction fuel with
  | zero =>
    intro s _ r hr
    cases hr
  | succ fuel ih =>
    intro s hok r hr
    rw [loopA_succ] at hr
    cases hpop : popMin s.pq with
    | none =>
      rw [stepA_empty hpop] at hr
      exact (Option.some.inj hr).symm
    | some pr =>
      obtain ⟨⟨f, c, curr⟩, rest⟩ := pr
      have hcg : curr ≠ goal := by
        rcases hok (f, c, curr) (popMin_spec hpop).1 with h | h
        · intro heq
          exact hne (h.symm.trans heq)
        · intro heq
          rw [heq, hG] at h
          cases h
      by_cases hcv : curr ∈ s.visited
      · rw [stepA_skip hpop hcg hcv] at hr
        exact ih _ (fun e he => hok e (popMin_rest_subset hpop he)) r hr
      · rw [stepA_expand hpop hcg hcv] at hr
        refine ih _ ?_ r hr
        intro e he
        rcases foldl_relax_pq_mem grid goal curr _ _ e he with h | h
        · exact hok e (popMin_rest_subset hpop h)
        · exact Or.inr (walkable_of_mem_neighbors h)

/-! ### `start = goal` pops immediately -/

theorem hscore_self (p : Pos) : hscore p p = 0 := by
  simp [hscore]

theorem astar_self_eq {grid : List (List Nat)} {p : Pos} :
    astar grid p p = some [p] := by
  have hpop : popMin (initState grid p p).pq =
      some ((hscore p p, 0, p), []) := by
    show popMin [(hscore p p, 0, p)] = some ((hscore p p, 0, p), [])
    simp [popMin, selMin, List.erase_cons_head]
  have hrun : astarRun grid p p = some (some [p]) := by
    unfold astarRun
    rw [show fuelFor grid = 5 * (rowsOf grid * colsOf grid + 1) + 1 + 1
      from rfl]
    rw [loopA_succ, stepA_goal hpop]
    show some (some (reconstruct [] p)) = some (some [p])
    simp [reconstruct, reconAux, alook]
  exact astar_eq_of_run hrun

/-! ### The tie-breaking counter -/

theorem relaxPush_counterInv {grid : List (List Nat)} {goal curr : Pos}
    {s : AState} {nb : Pos} (h : CounterInv s) :
    CounterInv (relaxPush grid goal curr s nb) := by
  obtain ⟨hnd, hlt⟩ := h
  constructor
  · show ((s.pq ++
      [((alook curr s.g_score).getD 0 + 1 + hscore goal nb, s.counter, nb)]).map
        (fun e => e.2.1)).Nodup
    rw [List.map_append]
    rw [List.nodup_append]
    refine ⟨hnd, List.nodup_singleton _, ?_⟩
    intro a ha hb
    simp only [List.map_cons, List.map_nil, List.mem_singleton] at hb
    obtain ⟨e, he, rfl⟩ := List.mem_map.1 ha
    have := hlt e he
    omega
  · intro e he
    show e.2.1 < s.counter + 1
    rcases List.mem_append.1 he with he | he
    · have := hlt e he
      omega
    · rcases List.mem_singleton.1 he with rfl
      show s.counter < s.counter + 1
      omega

theorem relax_counterInv {grid : List (List Nat)} {goal curr : Pos}
    {s : AState} {nb : Pos} (h : CounterInv s) :
    CounterInv (relax grid goal curr s nb) := by
  cases hg : alook nb s.g_score with
  | none =>
    rw [show relax grid goal curr s nb = relaxPush grid goal curr s nb
      from by simp [relax, hg]]
    exact relaxPush_counterInv h
  | some gnb =>
    by_cases htg : (alook curr s.g_score).getD 0 + 1 < gnb
    · rw [show relax grid goal curr s nb = relaxPush grid goal curr s nb
        from by simp [relax, hg, htg]]
      exact relaxPush_counterInv h
    · rw [show relax grid goal curr s nb = s from by simp [relax, hg, htg]]
      exact h

theorem foldl_relax_counterInv {grid : List (List Nat)} {goal curr : Pos} :
    ∀ (todo : List Pos) (s : AState), CounterInv s →
    CounterInv (todo.foldl (relax grid goal curr) s) := by
  intro todo
  induction todo with
  | nil => intro s h; exact h
  | cons nb rest ih =>
    intro s h
    exact ih _ (relax_counterInv h)

theorem popMin_counterInv {s : AState} (h : CounterInv s) {e : Entry}
    {rest : List Entry} (hpop : popMin s.pq = some (e, rest))
    {s' : AState} (hpq : s'.pq = rest) (hc : s.counter ≤ s'.counter) :
    CounterInv s' := by
  obtain ⟨hnd, hlt⟩ := h
  obtain ⟨-, hr, -⟩ := popMin_spec hpop
  constructor
  · rw [hpq, hr]
    exact hnd.sublist (List.Sublist.map _ (List.erase_sublist e s.pq))
  · intro e' he'
    rw [hpq, hr] at he'
    have := hlt e' (List.erase_subset _ _ he')
    omega

theorem stepA_counterInv {grid : List (List Nat)} {goal : Pos} {s s' : AState}
    (h : CounterInv s) (hstep : stepA grid goal s = Sum.inr s') :
    CounterInv s' := by
  cases hpop : popMin s.pq with
  | none =>
    rw [stepA_empty hpop] at hstep
    cases hstep
  | some pr =>
    obtain ⟨⟨f, c, curr⟩, rest⟩ := pr
    by_cases hcg : curr = goal
    · subst hcg
      rw [stepA_goal hpop] at hstep
      cases hstep
    · by_cases hcv : curr ∈ s.visited
      · rw [stepA_skip hpop hcg hcv] at hstep
        cases hstep
        exact popMin_counterInv h hpop rfl (le_refl _)
      · rw [stepA_expand hpop hcg hcv] at hstep
        cases hstep
        refine foldl_relax_counterInv _ _ ?_
        exact popMin_counterInv h hpop rfl (le_refl _)

theorem iterState_counterInv {grid : List (List Nat)} {start goal : Pos} :
    ∀ (n : Nat) (s : AState), iterState grid start goal n = some s →
    CounterInv s := by
  intro n
  induction n with
  | zero =>
    intro s hs
    cases hs
    constructor
    · exact List.nodup_singleton _
    · intro e he
      rcases List.mem_singleton.1 he with rfl
      show 0 < 1
      omega
  | succ n ih =>
    intro s hs
    rw [show iterState grid start goal (n + 1) =
      match iterState grid start goal n with
      | none => none
      | some s =>
        match stepA grid goal s with
        | Sum.inl _ => none
        | Sum.inr s' => some s' from rfl] at hs
    cases hit : iterState grid start goal n with
    | none =>
      rw [hit] at hs
      cases hs
    | some s0 =>
      rw [hit] at hs
      have hs' : (match stepA grid goal s0 with
        | Sum.inl _ => none
        | Sum.inr s' => some s') = some s := hs
      cases hstep : stepA grid goal s0 with
      | inl r =>
        rw [hstep] at hs'
        cases hs'
      | inr s1 =>
        rw [hstep] at hs'
        cases hs'
        exact stepA_counterInv (ih s0 hit) hstep

theorem interactive_reconAux_eq (cf : List (Pos × Pos)) :
    ∀ (fuel : Nat) (p : Pos) (acc : List Pos),
    Interactive.reconAux cf fuel p acc = reconAux cf fuel p acc := by
  intro fuel
  induction fuel with
  | zero =>
    intro p acc
    cases h : alook p cf with
    | none =>
      unfold Interactive.reconAux reconAux
      rw [h]
    | some q =>
      unfold Interactive.reconAux reconAux
      rw [h]
  | succ fuel ih =>
    intro p acc
    cases h : alook p cf with
    | none =>
      unfold Interactive.reconAux reconAux
      rw [h]
    | some q =>
      unfold Interactive.reconAux reconAux
      rw [h]
      exact ih q (p :: acc)

theorem interactive_reconstruct_eq :
    Interactive.reconstruct = reconstruct := by
  funext cf p
  show Interactive.reconAux cf cf.length p [] = reconAux cf cf.length p []
  exact interactive_reconAux_eq cf cf.length p []

theorem interactive_expandAll_eq :
    Interactive.expandAll = expandAll := rfl

theorem interactive_stepA_eq (grid : List (List Nat)) (goal : Pos)
    (s : AState) : Interactive.stepA grid goal s = stepA grid goal s := by
  unfold Interactive.stepA stepA
  rw [interactive_reconstruct_eq, interactive_expandAll_eq]

theorem interactive_loopA_eq (grid : List (List Nat)) (goal : Pos) :
    ∀ (fuel : Nat) (s : AState),
    Interactive.loopA grid goal fuel s = loopA grid goal fuel s := by
  intro fuel
  induction fuel with
  | zero => intro s; rfl
  | succ fuel ih =>
    intro s
    rw [show Interactive.loopA grid goal (fuel + 1) s =
      match Interactive.stepA grid goal s with
      | Sum.inl r => some r
      | Sum.inr s' => Interactive.loopA grid goal fuel s' from rfl]
    rw [loopA_succ, interactive_stepA_eq]
    cases stepA grid goal s with
    | inl r => rfl
    | inr s' => exact ih s'

theorem astarRun_files_eq (grid : List (List Nat)) (start goal : Pos) :
    Interactive.astarRun grid start goal = astarRun grid start goal := by
  unfold Interactive.astarRun astarRun
  rw [interactive_loopA_eq]
  rfl

/-! ### The claims -/

/-- C1: for every rectangular grid and in-bounds walkable start and goal,
a path returned by `astar` has step count (length minus one) equal to the
true shortest 4-directional walkable distance from start to goal. -/
theorem astar_optimal {grid : List (List Nat)} {start goal : Pos}
    {l : List Pos} (hrect : Rect grid) (hS : walkableB grid start = true)
    (hG : walkableB grid goal = true) (h : astar grid start goal = some l) :
    IsLeast {n | reachSteps grid start goal n} (l.length - 1) :=
  ((astar_spec hS).1 l h).2

theorem astar_optimal_witness :
    Rect [[0, 0]] ∧ walkableB [[0, 0]] ((0 : Int), (0 : Int)) = true ∧
    walkableB [[0, 0]] ((0 : Int), (1 : Int)) = true ∧
    IsLeast {n | reachSteps [[0, 0]] ((0 : Int), (0 : Int))
      ((0 : Int), (1 : Int)) n} 1 :=
  ⟨by constructor
      · decide
      · decide,
   by decide, by decide,
   @astar_optimal [[0, 0]] ((0 : Int), (0 : Int)) ((0 : Int), (1 : Int))
     [((0 : Int), (0 : Int)), ((0 : Int), (1 : Int))]
     ⟨by decide, by decide⟩ (by decide) (by decide) (by decide)⟩

/-- C2: for every rectangular grid and in-bounds walkable start and goal,
`astar` returns a path exactly when a 4-connected walkable route exists,
and `None` otherwise (as a value, never an error — total by
construction). -/
theorem astar_complete {grid : List (List Nat)} {start goal : Pos}
    (hrect : Rect grid) (hS : walkableB grid start = true)
    (hG : walkableB grid goal = true) :
    (∃ l, astar grid start goal = some l) ↔
    (∃ n, reachSteps grid start goal n) := by
  constructor
  · rintro ⟨l, hl⟩
    exact ⟨l.length - 1, ((astar_spec hS).1 l hl).2.1⟩
  · rintro ⟨n, hn⟩
    cases hast : astar grid start goal with
    | some l => exact ⟨l, rfl⟩
    | none => exact absurd hn ((astar_spec hS).2 hast n)

theorem astar_complete_witness :
    Rect [[0, 1], [1, 0]] ∧
    walkableB [[0, 1], [1, 0]] ((0 : Int), (0 : Int)) = true ∧
    walkableB [[0, 1], [1, 0]] ((1 : Int), (1 : Int)) = true ∧
    ¬ (∃ l, astar [[0, 1], [1, 0]] ((0 : Int), (0 : Int))
      ((1 : Int), (1 : Int)) = some l) :=
  ⟨⟨by decide, by decide⟩, by decide, by decide,
   fun hex =>
     ((astar_complete ⟨by decide, by decide⟩ (by decide) (by decide)).2
       ((astar_complete ⟨by decide, by decide⟩ (by decide) (by decide)).1 hex)
       |> fun h => by
         obtain ⟨l, hl⟩ := h
         rw [show astar [[0, 1], [1, 0]] ((0 : Int), (0 : Int))
           ((1 : Int), (1 : Int)) = none by decide] at hl
         cases hl)⟩

/-- C3: a path returned by `astar` (rectangular grid, in-bounds walkable
start and goal) starts at start, ends at goal, moves one unit along one
axis at each step, and stays on in-bounds walkable cells. -/
theorem astar_valid {grid : List (List Nat)} {start goal : Pos}
    {l : List Pos} (hrect : Rect grid) (hS : walkableB grid start = true)
    (hG : walkableB grid goal = true) (h : astar grid start goal = some l) :
    l.head? = some start ∧ l.getLast? = some goal ∧
    List.Chain' Adjacent l ∧ ∀ p ∈ l, walkableB grid p = true := by
  obtain ⟨⟨hh, hl, hc, hw⟩, -⟩ := (astar_spec hS).1 l h
  refine ⟨hh, hl, ?_, hw⟩
  exact hc.imp
    (fun a b hab => adjacent_of_mem_candidates (mem_neighbors.1 hab).1)

theorem astar_valid_witness :
    Rect [[0, 0], [0, 0]] ∧
    walkableB [[0, 0], [0, 0]] ((0 : Int), (0 : Int)) = true ∧
    walkableB [[0, 0], [0, 0]] ((1 : Int), (1 : Int)) = true ∧
    (([((0 : Int), (0 : Int)), ((1 : Int), (0 : Int)),
       ((1 : Int), (1 : Int))] : List Pos).head? =
        some ((0 : Int), (0 : Int)) ∧
     ([((0 : Int), (0 : Int)), ((1 : Int), (0 : Int)),
       ((1 : Int), (1 : Int))] : List Pos).getLast? =
        some ((1 : Int), (1 : Int)) ∧
     List.Chain' Adjacent
       [((0 : Int), (0 : Int)), ((1 : Int), (0 : Int)),
        ((1 : Int), (1 : Int))] ∧
     ∀ p ∈ ([((0 : Int), (0 : Int)), ((1 : Int), (0 : Int)),
       ((1 : Int), (1 : Int))] : List Pos),
       walkableB [[0, 0], [0, 0]] p = true) :=
  ⟨⟨by decide, by decide⟩, by decide, by decide,
   @astar_valid [[0, 0], [0, 0]] ((0 : Int), (0 : Int))
     ((1 : Int), (1 : Int))
     [((0 : Int), (0 : Int)), ((1 : Int), (0 : Int)), ((1 : Int), (1 : Int))]
     ⟨by decide, by decide⟩ (by decide) (by decide) (by decide)⟩

/-- C4 counterexample: on grid `[[1,0]]` the start `(0,0)` lies on a
blocked cell, yet `astar` does not return `None`: the code never checks
the start cell, searches from it, and returns the path
`[(0,0), (0,1)]`. -/
theorem astar_c4_counterexample :
    walkableB [[1, 0]] ((0 : Int), (0 : Int)) = false ∧
    astar [[1, 0]] ((0 : Int), (0 : Int)) ((0 : Int), (1 : Int)) =
      some [((0 : Int), (0 : Int)), ((0 : Int), (1 : Int))] := by
  constructor
  · decide
  · decide

/-- C4 amended: only the goal side of the contract holds: when `start ≠
goal` and the goal is out of bounds or blocked, `astar` returns `None`;
the start's bounds and walkability are never checked (a blocked or
out-of-bounds start is searched from normally, and `start = goal` returns
`[start]` regardless of validity). -/
theorem astar_unwalkable_goal_none {grid : List (List Nat)}
    {start goal : Pos} (hne : start ≠ goal)
    (hG : walkableB grid goal = false) :
    astar grid start goal = none := by
  obtain ⟨r, hr⟩ := astarRun_isSome grid start goal
  have hnone : r = none := by
    refine loopA_no_goal hne hG (fuelFor grid) (initState grid start goal)
      ?_ r hr
    intro e he
    rcases List.mem_singleton.1 he with rfl
    exact Or.inl rfl
  rw [astar_eq_of_run hr, hnone]

theorem astar_unwalkable_goal_none_witness :
    ((0 : Int), (0 : Int)) ≠ ((0 : Int), (1 : Int)) ∧
    walkableB [[0, 1]] ((0 : Int), (1 : Int)) = false ∧
    astar [[0, 1]] ((0 : Int), (0 : Int)) ((0 : Int), (1 : Int)) = none :=
  ⟨by decide, by decide, astar_unwalkable_goal_none (by decide) (by decide)⟩

/-- C5 counterexample: in the reference example the goal `(3,3)` is
itself one of the obstacles, so `astar(grid, (0,0), (3,3))` returns
`None` — not a 7-coordinate path of 6 steps. -/
theorem astar_c5_counterexample :
    astar exampleGrid ((0 : Int), (0 : Int)) ((3 : Int), (3 : Int)) =
      none := by
  decide

/-- C5 amended: on the reference 5×5 grid the cell `(3,3)` is blocked,
no walkable route from `(0,0)` to `(3,3)` exists at any length, and
`astar` returns `None` (the repository's demo prints "No path
found!"). -/
theorem astar_example_blocked_goal :
    walkableB exampleGrid ((3 : Int), (3 : Int)) = false ∧
    astar exampleGrid ((0 : Int), (0 : Int)) ((3 : Int), (3 : Int)) =
      none ∧
    ∀ n, ¬ reachSteps exampleGrid ((0 : Int), (0 : Int))
      ((3 : Int), (3 : Int)) n :=
  ⟨by decide, by decide, (astar_spec (by decide)).2 (by decide)⟩

/-- C6: `astar` is deterministic — two invocations on the same grid,
start and goal yield the same result (in the embedding the call is a
pure function of its arguments; the only run-time choice, `heapq`'s pop,
is fixed by the `(f, counter)` key since counters are unique). -/
theorem astar_deterministic (grid : List (List Nat)) (start goal : Pos)
    (r1 r2 : Option (List Pos)) (h1 : astar grid start goal = r1)
    (h2 : astar grid start goal = r2) : r1 = r2 :=
  h1 ▸ h2 ▸ rfl

theorem astar_deterministic_witness :
    (some [((0 : Int), (0 : Int))] : Option (List Pos)) =
      some [((0 : Int), (0 : Int))] :=
  astar_deterministic [[0]] ((0 : Int), (0 : Int)) ((0 : Int), (0 : Int))
    (some [((0 : Int), (0 : Int))]) (some [((0 : Int), (0 : Int))])
    (by decide) (by decide)

/-- C7: at every reachable loop state the queue's counters are pairwise
distinct and strictly below the next counter to be assigned (each push
assigns the current counter, starting from 0, and increments it), and
the popped entry is minimal in the lexicographic `(f, counter)` order:
among entries of equal `f`, the earliest-inserted (smallest counter)
pops first. -/
theorem loop_counter_tiebreak (grid : List (List Nat)) (start goal : Pos) :
    ∀ (n : Nat) (s : AState), iterState grid start goal n = some s →
    ((s.pq.map (fun e => e.2.1)).Nodup ∧
      (∀ e ∈ s.pq, e.2.1 < s.counter)) ∧
    (∀ e rest, popMin s.pq = some (e, rest) →
      ∀ e' ∈ s.pq, e.1 < e'.1 ∨ (e.1 = e'.1 ∧ e.2.1 ≤ e'.2.1)) := by
  intro n s hs
  refine ⟨iterState_counterInv n s hs, ?_⟩
  intro e rest hpop e' he'
  have hmin := (popMin_spec hpop).2.2 e' he'
  rw [entLtB_false_iff] at hmin
  rcases Nat.lt_or_ge e.1 e'.1 with h | h
  · exact Or.inl h
  · have heq : e.1 = e'.1 := by omega
    exact Or.inr ⟨heq, hmin.2 heq.symm⟩

theorem loop_counter_tiebreak_witness :
    iterState [[0, 0]] ((0 : Int), (0 : Int)) ((0 : Int), (1 : Int)) 0 =
      some (initState [[0, 0]] ((0 : Int), (0 : Int)) ((0 : Int), (1 : Int))) ∧
    (((initState [[0, 0]] ((0 : Int), (0 : Int))
        ((0 : Int), (1 : Int))).pq.map (fun e => e.2.1)).Nodup ∧
      (∀ e ∈ (initState [[0, 0]] ((0 : Int), (0 : Int))
        ((0 : Int), (1 : Int))).pq,
        e.2.1 < (initState [[0, 0]] ((0 : Int), (0 : Int))
          ((0 : Int), (1 : Int))).counter)) :=
  ⟨rfl,
   (loop_counter_tiebreak [[0, 0]] ((0 : Int), (0 : Int))
     ((0 : Int), (1 : Int)) 0 _ rfl).1⟩

/-- C8: for every in-bounds walkable cell `p`, `astar grid p p` returns
the single-element path `[p]` (the first pop is the start, which equals
the goal). -/
theorem astar_start_eq_goal {grid : List (List Nat)} {p : Pos}
    (hrect : Rect grid) (hp : walkableB grid p = true) :
    astar grid p p = some [p] :=
  astar_self_eq

theorem astar_start_eq_goal_witness :
    Rect [[0]] ∧ walkableB [[0]] ((0 : Int), (0 : Int)) = true ∧
    astar [[0]] ((0 : Int), (0 : Int)) ((0 : Int), (0 : Int)) =
      some [((0 : Int), (0 : Int))] :=
  ⟨⟨by decide, by decide⟩, by decide,
   astar_start_eq_goal ⟨by decide, by decide⟩ (by decide)⟩

/-- C9: for every grid with at least one row and one column, the search
loop terminates: the fuelled run completes (returns a path or `None`)
within the `fuelFor` bound, for every start and goal. -/
theorem astar_terminates {grid : List (List Nat)} (start goal : Pos)
    (h1 : 1 ≤ rowsOf grid) (h2 : 1 ≤ colsOf grid) :
    ∃ r, astarRun grid start goal = some r :=
  astarRun_isSome grid start goal

theorem astar_terminates_witness :
    1 ≤ rowsOf [[0]] ∧ 1 ≤ colsOf [[0]] ∧
    ∃ r, astarRun [[0]] ((0 : Int), (0 : Int)) ((0 : Int), (0 : Int)) =
      some r :=
  ⟨by decide, by decide,
   astar_terminates ((0 : Int), (0 : Int)) ((0 : Int), (0 : Int))
     (by decide) (by decide)⟩

/-- C10: the `astar` of `astarclaude.py` and the `astar` of
`interactive.py` (embedded separately above) agree on every input. -/
theorem astar_files_agree : ∀ (grid : List (List Nat)) (start goal : Pos),
    astar grid start goal = Interactive.astar grid start goal := by
  intro g s t
  unfold astar Interactive.astar
  rw [astarRun_files_eq]
